import Mathlib

/-!
Shallow embedding of the ledger arithmetic engine of the Expense-Sharing
application (backend/src/utils/splitCalculator.ts: split resolution, and the
balance simplifier in the same module).

Modelling conventions:
- decimal.js `Decimal` values are modelled as exact rationals (`ℚ`).  The
  library computes with 20 significant digits of intermediate precision;
  at money scale this never changes a 2-decimal rounding result, so the
  embedding uses exact rational arithmetic with explicit rounding at each
  `toDecimalPlaces` call site.
- `toDecimalPlaces(2, Decimal.ROUND_DOWN)` rounds toward zero and is
  modelled by `roundDown2`; `toDecimalPlaces(2)` uses the decimal.js
  default `ROUND_HALF_UP` (half away from zero) and is modelled by
  `roundHalfUp2`.
- `throw new Error(...)` is modelled with `Except`; each distinct throw
  site becomes a constructor of an error type carrying the data that the
  thrown message interpolates.
- JavaScript number arithmetic in the validators (plain `+` on `number`)
  is likewise modelled as exact rational arithmetic.
-/

/-- Truncation toward zero of a rational, as an integer
(decimal.js `ROUND_DOWN`). -/
def ratTrunc (q : ℚ) : ℤ := if 0 ≤ q then ⌊q⌋ else ⌈q⌉

/-- `toDecimalPlaces(2, Decimal.ROUND_DOWN)`: round to 2 decimals toward zero. -/
def roundDown2 (q : ℚ) : ℚ := (ratTrunc (q * 100) : ℚ) / 100

/-- `toDecimalPlaces(2)` with the decimal.js default rounding
`ROUND_HALF_UP` (nearest, ties away from zero). -/
def roundHalfUp2 (q : ℚ) : ℚ :=
  if 0 ≤ q then ((⌊q * 100 + 1 / 2⌋ : ℤ) : ℚ) / 100
  else ((⌈q * 100 - 1 / 2⌉ : ℤ) : ℚ) / 100

/-- The specification formula `floor(·, 2 decimals)`. -/
def floor2 (q : ℚ) : ℚ := ((⌊q * 100⌋ : ℤ) : ℚ) / 100

/-- `SplitType` from splitCalculator.ts. -/
inductive SplitType where
  | EQUAL
  | EXACT
  | PERCENTAGE
deriving DecidableEq, Repr

/-- `SplitInput` from splitCalculator.ts: `value` is optional. -/
structure SplitInput where
  userId : String
  value : Option ℚ := none
deriving DecidableEq, Repr

/-- `ResolvedSplit` from splitCalculator.ts. -/
structure ResolvedSplit where
  userId : String
  amount : ℚ
deriving DecidableEq, Repr

/-- One constructor per distinct `throw new Error(...)` site in
splitCalculator.ts, carrying the data interpolated into the message. -/
inductive SplitError where
  /-- `At least one participant is required` -/
  | noParticipants
  /-- `Invalid exact amount for user ${p.userId}` -/
  | invalidExactAmount (userId : String)
  /-- `Exact split amounts (${sum}) do not equal total (${totalAmount})` -/
  | exactSumMismatch (sum totalAmount : ℚ)
  /-- `Invalid percentage for user ${p.userId}` -/
  | invalidPercentage (userId : String)
  /-- `Percentages must sum to 100, got ${totalPercentage}` -/
  | percentageSumMismatch (totalPercentage : ℚ)
deriving DecidableEq, Repr

/-- `participants.map((p, index) => ...)` with the element index. -/
def mapWithIndexFrom (f : ℕ → α → β) : ℕ → List α → List β
  | _, [] => []
  | i, a :: as => f i a :: mapWithIndexFrom f (i + 1) as

def mapWithIndex (f : ℕ → α → β) (l : List α) : List β := mapWithIndexFrom f 0 l

/-- `resolveEqualSplit` from splitCalculator.ts. -/
def resolveEqualSplit (totalAmount : ℚ) (participants : List SplitInput) :
    List ResolvedSplit :=
  let count : ℚ := participants.length
  let baseAmount := roundDown2 (totalAmount / count)
  let totalBase := baseAmount * count
  let remainder := totalAmount - totalBase
  mapWithIndex
    (fun index p =>
      { userId := p.userId
        amount := if index = 0 then baseAmount + remainder else baseAmount })
    participants

/-- The first participant rejected by the validation loop of
`resolveExactSplit` (`p.value === undefined || p.value < 0`). -/
def firstInvalidExact : List SplitInput → Option String
  | [] => none
  | p :: ps =>
    match p.value with
    | none => some p.userId
    | some v => if v < 0 then some p.userId else firstInvalidExact ps

/-- `resolveExactSplit` from splitCalculator.ts. -/
def resolveExactSplit (totalAmount : ℚ) (participants : List SplitInput) :
    Except SplitError (List ResolvedSplit) :=
  match firstInvalidExact participants with
  | some u => .error (.invalidExactAmount u)
  | none =>
    let sum := (participants.map (fun p => p.value.getD 0)).sum
    if |sum - totalAmount| > 1 / 100 then
      .error (.exactSumMismatch sum totalAmount)
    else
      .ok (participants.map (fun p =>
        { userId := p.userId, amount := roundHalfUp2 (p.value.getD 0) }))

/-- The first participant rejected by the validation loop of
`resolvePercentageSplit` (`undefined || value < 0 || value > 100`). -/
def firstInvalidPercentage : List SplitInput → Option String
  | [] => none
  | p :: ps =>
    match p.value with
    | none => some p.userId
    | some v =>
      if v < 0 ∨ 100 < v then some p.userId else firstInvalidPercentage ps

/-- `resolvePercentageSplit` from splitCalculator.ts.  The `splits = []`
arm of the remainder branch is unreachable (an empty list never passes the
percentage-sum check). -/
def resolvePercentageSplit (totalAmount : ℚ) (participants : List SplitInput) :
    Except SplitError (List ResolvedSplit) :=
  match firstInvalidPercentage participants with
  | some u => .error (.invalidPercentage u)
  | none =>
    let totalPercentage := (participants.map (fun p => p.value.getD 0)).sum
    if |totalPercentage - 100| > 1 / 100 then
      .error (.percentageSumMismatch totalPercentage)
    else
      let splits := participants.map (fun p =>
        { userId := p.userId
          amount := roundDown2 (totalAmount * p.value.getD 0 / 100) })
      let calculatedSum := (splits.map (fun s => s.amount)).sum
      let remainder := totalAmount - calculatedSum
      if 0 < remainder then
        match splits with
        | [] => .ok []
        | s :: rest => .ok ({ s with amount := s.amount + remainder } :: rest)
      else
        .ok splits

/-- `resolveSplits` from splitCalculator.ts.  `payerId` is accepted and,
as in the source, never used.  The `default` arm of the source switch is
unreachable because `SplitType` is a closed union. -/
def resolveSplits (totalAmount : ℚ) (splitType : SplitType)
    (participants : List SplitInput) (payerId : String) :
    Except SplitError (List ResolvedSplit) :=
  if participants.length = 0 then .error .noParticipants
  else
    match splitType with
    | .EQUAL => .ok (resolveEqualSplit totalAmount participants)
    | .EXACT => resolveExactSplit totalAmount participants
    | .PERCENTAGE => resolvePercentageSplit totalAmount participants

/-- One constructor per message pushed by `validateSplitInput`, carrying
the interpolated data. -/
inductive ValidationMsg where
  /-- `At least one participant is required` -/
  | noParticipants
  /-- `Amount must be greater than 0` -/
  | nonPositiveAmount
  /-- `Duplicate participants are not allowed` -/
  | duplicateParticipants
  /-- `Exact amounts must sum to ${totalAmount}, got ${sum}` -/
  | exactMismatch (totalAmount sum : ℚ)
  /-- `Percentages must sum to 100, got ${sum}` -/
  | percentageMismatch (sum : ℚ)
deriving DecidableEq, Repr

/-- `validateSplitInput` from splitCalculator.ts: collects error messages
in source order (`p.value || 0` reads absent values as 0). -/
def validateSplitInput (splitType : SplitType) (totalAmount : ℚ)
    (participants : List SplitInput) : List ValidationMsg :=
  (if participants.length = 0 then [ValidationMsg.noParticipants] else []) ++
  (if totalAmount ≤ 0 then [ValidationMsg.nonPositiveAmount] else []) ++
  (let userIds := participants.map (fun p => p.userId)
   if userIds.dedup.length ≠ userIds.length then
     [ValidationMsg.duplicateParticipants]
   else []) ++
  (if splitType = SplitType.EXACT then
     let sum := (participants.map (fun p => p.value.getD 0)).sum
     if |sum - totalAmount| > 1 / 100 then
       [ValidationMsg.exactMismatch totalAmount sum]
     else []
   else []) ++
  (if splitType = SplitType.PERCENTAGE then
     let sum := (participants.map (fun p => p.value.getD 0)).sum
     if |sum - 100| > 1 / 100 then [ValidationMsg.percentageMismatch sum]
     else []
   else [])

/-- The split-resolution part of the expense-creation route
(backend/src/modules/expenses/routes.ts): run `validateSplitInput`,
return the first validation message on failure, otherwise call
`resolveSplits`. -/
def createExpenseResolve (amount : ℚ) (splitType : SplitType)
    (participants : List SplitInput) (payerId : String) :
    Except (ValidationMsg ⊕ SplitError) (List ResolvedSplit) :=
  match validateSplitInput splitType amount participants with
  | e :: _ => .error (Sum.inl e)
  | [] =>
    (resolveSplits amount splitType participants payerId).mapError Sum.inr

/-- `UserBalance` from the balance simplifier module: positive balance =
creditor, negative = debtor. -/
structure UserBalance where
  userId : String
  balance : ℚ
deriving DecidableEq, Repr

/-- `Settlement` from the balance simplifier module. -/
structure Settlement where
  fromUserId : String
  toUserId : String
  amount : ℚ
deriving DecidableEq, Repr

/-- The creditor list built by the filtering pass of `simplifyBalances`
(entries with strictly positive balance, input order preserved). -/
def creditorsOf (balances : List UserBalance) : List UserBalance :=
  balances.filter (fun b => 0 < b.balance)

/-- The debtor list built by the filtering pass of `simplifyBalances`
(entries with strictly negative balance, stored as their absolute value). -/
def debtorsOf (balances : List UserBalance) : List UserBalance :=
  (balances.filter (fun b => b.balance < 0)).map
    (fun b => { userId := b.userId, balance := |b.balance| })

/-- Insertion step of a stable descending sort by balance: an element
moves left past strictly smaller balances only, so entries with equal
balance keep their input order (JavaScript `Array.prototype.sort` is
stable, and the comparator sorts by balance descending). -/
def insertDesc (x : UserBalance) : List UserBalance → List UserBalance
  | [] => [x]
  | y :: ys => if x.balance < y.balance then y :: insertDesc x ys else x :: y :: ys

/-- Stable descending sort by balance, modelling
`creditors.sort(sortByBalance)` / `debtors.sort(sortByBalance)`. -/
def sortDesc : List UserBalance → List UserBalance
  | [] => []
  | x :: xs => insertDesc x (sortDesc xs)

/-- The two-cursor greedy matching loop of `simplifyBalances`.  The head
of each list is the current cursor position; an entry left with a
residual balance stays at the head for the next round, a settled entry is
dropped (the cursor moves past it).  The final branch (neither side
settled) is unreachable: the transfer is the minimum of the two balances,
so at least one side reaches zero. -/
def greedyLoop : List UserBalance → List UserBalance → List Settlement
  | [], _ => []
  | _ :: _, [] => []
  | c :: cs, d :: ds =>
    let transferAmount := min c.balance d.balance
    let emitted :=
      if 0 < transferAmount then
        [{ fromUserId := d.userId, toUserId := c.userId
           amount := roundHalfUp2 transferAmount }]
      else []
    let cb := c.balance - transferAmount
    let db := d.balance - transferAmount
    emitted ++
      (if cb ≤ 0 then
        if db ≤ 0 then greedyLoop cs ds
        else greedyLoop cs ({ userId := d.userId, balance := db } :: ds)
      else
        if db ≤ 0 then greedyLoop ({ userId := c.userId, balance := cb } :: cs) ds
        else greedyLoop cs ds)
termination_by cs ds => cs.length + ds.length
decreasing_by all_goals (simp; try omega)

/-- `simplifyBalances` from the balance simplifier module. -/
def simplifyBalances (balances : List UserBalance) : List Settlement :=
  greedyLoop (sortDesc (creditorsOf balances)) (sortDesc (debtorsOf balances))

/-- Sum of the amounts of a settlement list. -/
def sumAmounts (l : List Settlement) : ℚ := (l.map (fun s => s.amount)).sum

/-- Sum of the amounts of a resolved-split list. -/
def sumShares (l : List ResolvedSplit) : ℚ := (l.map (fun s => s.amount)).sum

/-- Sum of the balances of a balance list. -/
def sumBal (l : List UserBalance) : ℚ := (l.map (fun b => b.balance)).sum

/-- A rational is a whole number of cents, i.e. a value of the 2-decimal
`Money` type of the data model. -/
def isCents (q : ℚ) : Prop := (q * 100).den = 1

instance (q : ℚ) : Decidable (isCents q) :=
  inferInstanceAs (Decidable ((q * 100).den = 1))

/-- Every participant supplied an exact value `≥ 0` (the condition of the
validation loop in `resolveExactSplit`). -/
def exactValuesOk (ps : List SplitInput) : Prop :=
  ∀ p ∈ ps, ∃ v, p.value = some v ∧ 0 ≤ v

/-- Every participant supplied a percentage in `[0, 100]` (the condition
of the validation loop in `resolvePercentageSplit`). -/
def percentValuesOk (ps : List SplitInput) : Prop :=
  ∀ p ∈ ps, ∃ v, p.value = some v ∧ 0 ≤ v ∧ v ≤ 100

/-- The sum of the supplied values (absent values read as 0, as in the
source reductions). -/
def valuesSum (ps : List SplitInput) : ℚ :=
  (ps.map (fun p => p.value.getD 0)).sum

/-- The floored percentage share of one participant, in the words of the
specification: `floor(totalAmount * value / 100, 2 decimals)`. -/
def flooredShare (totalAmount : ℚ) (p : SplitInput) : ℚ :=
  floor2 (totalAmount * p.value.getD 0 / 100)

/-- The sum of all floored percentage shares. -/
def flooredSum (totalAmount : ℚ) (ps : List SplitInput) : ℚ :=
  (ps.map (flooredShare totalAmount)).sum

/-- The truncated percentage share computed by the source
(`totalAmount.times(value).dividedBy(100).toDecimalPlaces(2, ROUND_DOWN)`). -/
def truncShare (totalAmount : ℚ) (p : SplitInput) : ℚ :=
  roundDown2 (totalAmount * p.value.getD 0 / 100)

/-- The sum of all truncated percentage shares (`calculatedSum`). -/
def truncSum (totalAmount : ℚ) (ps : List SplitInput) : ℚ :=
  (ps.map (truncShare totalAmount)).sum

/-- Recognizer for the sum-mismatch failure of the exact split (the error
whose message reports both sums). -/
def isSumMismatchError (r : Except SplitError (List ResolvedSplit)) : Bool :=
  match r with
  | .error (.exactSumMismatch _ _) => true
  | _ => false

theorem roundDown2_eq_floor2 (q : ℚ) (h : 0 ≤ q) : roundDown2 q = floor2 q := by
  have h100 : (0 : ℚ) ≤ q * 100 := by positivity
  simp [roundDown2, floor2, ratTrunc, h100]


theorem isCents_iff (q : ℚ) : isCents q ↔ ∃ n : ℤ, q = (n : ℚ) / 100 := by
  constructor
  · intro h
    refine ⟨(q * 100).num, ?_⟩
    have h2 : ((q * 100).num : ℚ) = q * 100 := (Rat.den_eq_one_iff _).mp h
    field_simp
    linarith
  · rintro ⟨n, rfl⟩
    unfold isCents
    have h1 : (n : ℚ) / 100 * 100 = (n : ℚ) := by field_simp
    rw [h1]
    exact Rat.den_intCast n

theorem isCents_sub {a b : ℚ} (ha : isCents a) (hb : isCents b) :
    isCents (a - b) := by
  rw [isCents_iff] at ha hb ⊢
  obtain ⟨m, rfl⟩ := ha
  obtain ⟨n, rfl⟩ := hb
  exact ⟨m - n, by push_cast; ring⟩

theorem isCents_min {a b : ℚ} (ha : isCents a) (hb : isCents b) :
    isCents (min a b) := by
  rcases min_choice a b with h | h <;> rw [h] <;> assumption

theorem isCents_abs {a : ℚ} (ha : isCents a) : isCents |a| := by
  rcases abs_choice a with h | h <;> rw [h]
  · exact ha
  · rw [isCents_iff] at ha ⊢
    obtain ⟨m, rfl⟩ := ha
    exact ⟨-m, by rw [Int.cast_neg]; ring⟩

theorem isCents_pos_le {a : ℚ} (ha : isCents a) (h : 0 < a) : 1 / 100 ≤ a := by
  rw [isCents_iff] at ha
  obtain ⟨m, rfl⟩ := ha
  have hm : (0 : ℚ) < m := by linarith
  have hmz : 0 < m := by exact_mod_cast hm
  have hm1 : (1 : ℚ) ≤ (m : ℚ) := by exact_mod_cast hmz
  linarith

theorem roundHalfUp2_cents {a : ℚ} (ha : isCents a) (h : 0 ≤ a) :
    roundHalfUp2 a = a := by
  rw [isCents_iff] at ha
  obtain ⟨m, rfl⟩ := ha
  have h1 : (m : ℚ) / 100 * 100 = (m : ℚ) := by field_simp
  rw [roundHalfUp2, if_pos h, h1]
  have h2 : (m : ℚ) + 1 / 2 = 1 / 2 + (m : ℤ) := by push_cast; ring
  rw [h2, Int.floor_add_int]
  norm_num

theorem sumAmounts_nil : sumAmounts [] = 0 := rfl

theorem sumAmounts_cons (s : Settlement) (l : List Settlement) :
    sumAmounts (s :: l) = s.amount + sumAmounts l := by
  simp [sumAmounts]

theorem sumAmounts_append (a b : List Settlement) :
    sumAmounts (a ++ b) = sumAmounts a + sumAmounts b := by
  simp [sumAmounts]

theorem sumBal_nil : sumBal [] = 0 := rfl

theorem sumBal_cons (b : UserBalance) (l : List UserBalance) :
    sumBal (b :: l) = b.balance + sumBal l := by
  simp [sumBal]

theorem sumBal_nonneg {l : List UserBalance} (h : ∀ x ∈ l, 0 < x.balance) :
    0 ≤ sumBal l := by
  induction l with
  | nil => simp [sumBal]
  | cons x xs ih =>
    rw [sumBal_cons]
    have hx := h x (by simp)
    have hxs := ih (fun y hy => h y (List.mem_cons_of_mem _ hy))
    linarith

theorem greedyLoop_nil_left (ds : List UserBalance) : greedyLoop [] ds = [] := by
  rw [greedyLoop]

theorem greedyLoop_nil_right (cs : List UserBalance) : greedyLoop cs [] = [] := by
  cases cs <;> rw [greedyLoop]

/-- One step of the loop when the creditor at the cursor holds the smaller
balance: the creditor is settled exactly and its cursor advances, while the
debtor keeps the residual. -/
theorem greedyLoop_lt {c d : UserBalance} (cs ds : List UserBalance)
    (h : c.balance < d.balance) :
    greedyLoop (c :: cs) (d :: ds) =
      (if 0 < c.balance then
        [{ fromUserId := d.userId, toUserId := c.userId
           amount := roundHalfUp2 c.balance }]
       else []) ++
      greedyLoop cs ({ userId := d.userId, balance := d.balance - c.balance } :: ds) := by
  rw [greedyLoop]
  have h1 : min c.balance d.balance = c.balance := min_eq_left h.le
  simp only [h1, sub_self, le_refl, if_true]
  have h2 : ¬ d.balance - c.balance ≤ 0 := by linarith
  simp [h2]

/-- One step of the loop when the debtor at the cursor holds the smaller
balance. -/
theorem greedyLoop_gt {c d : UserBalance} (cs ds : List UserBalance)
    (h : d.balance < c.balance) :
    greedyLoop (c :: cs) (d :: ds) =
      (if 0 < d.balance then
        [{ fromUserId := d.userId, toUserId := c.userId
           amount := roundHalfUp2 d.balance }]
       else []) ++
      greedyLoop ({ userId := c.userId, balance := c.balance - d.balance } :: cs) ds := by
  rw [greedyLoop]
  have h1 : min c.balance d.balance = d.balance := min_eq_right h.le
  simp only [h1, sub_self, le_refl, if_true]
  have h2 : ¬ c.balance - d.balance ≤ 0 := by linarith
  simp [h2]

/-- One step of the loop when both cursors hold the same balance: both are
settled and both cursors advance. -/
theorem greedyLoop_eq {c d : UserBalance} (cs ds : List UserBalance)
    (h : c.balance = d.balance) :
    greedyLoop (c :: cs) (d :: ds) =
      (if 0 < c.balance then
        [{ fromUserId := d.userId, toUserId := c.userId
           amount := roundHalfUp2 c.balance }]
       else []) ++ greedyLoop cs ds := by
  rw [greedyLoop]
  have h1 : min c.balance d.balance = c.balance := by rw [h, min_self]
  simp [h1, h.symm]

theorem greedyLoop_sum_aux : ∀ (n : ℕ) (cs ds : List UserBalance),
    cs.length + ds.length ≤ n →
    (∀ x ∈ cs, 0 < x.balance ∧ isCents x.balance) →
    (∀ x ∈ ds, 0 < x.balance ∧ isCents x.balance) →
    sumAmounts (greedyLoop cs ds) = min (sumBal cs) (sumBal ds) := by
  intro n
  induction n with
  | zero =>
    intro cs ds hn hc hd
    have hcs : cs = [] := List.length_eq_zero.mp (by omega)
    subst hcs
    simp [greedyLoop_nil_left, sumAmounts_nil, sumBal_nil,
      min_eq_left (sumBal_nonneg (fun x hx => (hd x hx).1))]
  | succ n ih =>
    intro cs ds hn hc hd
    match cs, ds with
    | [], ds =>
      rw [greedyLoop_nil_left, sumAmounts_nil, sumBal_nil]
      rw [min_eq_left (sumBal_nonneg (fun x hx => (hd x hx).1))]
    | c :: cs, [] =>
      rw [greedyLoop_nil_right, sumAmounts_nil, sumBal_nil]
      rw [min_eq_right (sumBal_nonneg (fun x hx => (hc x hx).1))]
    | c :: cs, d :: ds =>
      obtain ⟨hc0, hcC⟩ := hc c (by simp)
      obtain ⟨hd0, hdC⟩ := hd d (by simp)
      have hcs : ∀ x ∈ cs, 0 < x.balance ∧ isCents x.balance :=
        fun x hx => hc x (by simp [hx])
      have hds : ∀ x ∈ ds, 0 < x.balance ∧ isCents x.balance :=
        fun x hx => hd x (by simp [hx])
      have hlen : cs.length + ds.length + 2 ≤ n + 1 := by
        simp at hn; omega
      rcases lt_trichotomy c.balance d.balance with h | h | h
      · rw [greedyLoop_lt cs ds h, if_pos hc0, sumAmounts_append,
          sumAmounts_cons, sumAmounts_nil]
        have hrec := ih cs ({ userId := d.userId, balance := d.balance - c.balance } :: ds)
          (by simp; omega) hcs
          (by intro x hx
              rcases List.mem_cons.mp hx with rfl | hx
              · exact ⟨by show (0 : ℚ) < d.balance - c.balance; linarith,
                  by show isCents (d.balance - c.balance); exact isCents_sub hdC hcC⟩
              · exact hds x hx)
        rw [hrec, sumBal_cons, sumBal_cons, sumBal_cons]
        dsimp only
        rw [roundHalfUp2_cents hcC hc0.le]
        rcases le_total (sumBal cs) (d.balance - c.balance + sumBal ds) with hm | hm
        · rw [min_eq_left hm,
            min_eq_left (by linarith : c.balance + sumBal cs ≤ d.balance + sumBal ds)]
          ring
        · rw [min_eq_right hm,
            min_eq_right (by linarith : d.balance + sumBal ds ≤ c.balance + sumBal cs)]
          ring
      · rw [greedyLoop_eq cs ds h, if_pos hc0, sumAmounts_append,
          sumAmounts_cons, sumAmounts_nil]
        have hrec := ih cs ds (by omega) hcs hds
        rw [hrec, sumBal_cons, sumBal_cons]
        dsimp only
        rw [roundHalfUp2_cents hcC hc0.le]
        rcases le_total (sumBal cs) (sumBal ds) with hm | hm
        · rw [min_eq_left hm,
            min_eq_left (by linarith : c.balance + sumBal cs ≤ d.balance + sumBal ds)]
          linarith
        · rw [min_eq_right hm,
            min_eq_right (by linarith : d.balance + sumBal ds ≤ c.balance + sumBal cs)]
          linarith
      · rw [greedyLoop_gt cs ds h, if_pos hd0, sumAmounts_append,
          sumAmounts_cons, sumAmounts_nil]
        have hrec := ih ({ userId := c.userId, balance := c.balance - d.balance } :: cs) ds
          (by simp; omega)
          (by intro x hx
              rcases List.mem_cons.mp hx with rfl | hx
              · exact ⟨by show (0 : ℚ) < c.balance - d.balance; linarith,
                  by show isCents (c.balance - d.balance); exact isCents_sub hcC hdC⟩
              · exact hcs x hx)
          hds
        rw [hrec, sumBal_cons, sumBal_cons, sumBal_cons]
        dsimp only
        rw [roundHalfUp2_cents hdC hd0.le]
        rcases le_total (c.balance - d.balance + sumBal cs) (sumBal ds) with hm | hm
        · rw [min_eq_left hm,
            min_eq_left (by linarith : c.balance + sumBal cs ≤ d.balance + sumBal ds)]
          ring
        · rw [min_eq_right hm,
            min_eq_right (by linarith : d.balance + sumBal ds ≤ c.balance + sumBal cs)]
          ring

/-- Conservation of the greedy loop: when every entry on both sides is a
strictly positive whole number of cents, the emitted transfer amounts sum
to the smaller of the two side totals. -/
theorem greedyLoop_sum (cs ds : List UserBalance)
    (hc : ∀ x ∈ cs, 0 < x.balance ∧ isCents x.balance)
    (hd : ∀ x ∈ ds, 0 < x.balance ∧ isCents x.balance) :
    sumAmounts (greedyLoop cs ds) = min (sumBal cs) (sumBal ds) :=
  greedyLoop_sum_aux (cs.length + ds.length) cs ds le_rfl hc hd

theorem sumBal_insertDesc (x : UserBalance) (l : List UserBalance) :
    sumBal (insertDesc x l) = x.balance + sumBal l := by
  induction l with
  | nil => simp [insertDesc, sumBal]
  | cons y ys ih =>
    rw [insertDesc]
    split_ifs with h
    · rw [sumBal_cons, ih, sumBal_cons]; ring
    · rw [sumBal_cons, sumBal_cons]

theorem sumBal_sortDesc (l : List UserBalance) :
    sumBal (sortDesc l) = sumBal l := by
  induction l with
  | nil => rfl
  | cons x xs ih => rw [sortDesc, sumBal_insertDesc, ih, sumBal_cons]

theorem mem_insertDesc {y x : UserBalance} {l : List UserBalance} :
    y ∈ insertDesc x l ↔ y = x ∨ y ∈ l := by
  induction l with
  | nil => simp [insertDesc]
  | cons z zs ih =>
    rw [insertDesc]
    split_ifs with h
    · simp only [List.mem_cons, ih]
      tauto
    · simp

theorem mem_sortDesc {y : UserBalance} {l : List UserBalance} :
    y ∈ sortDesc l ↔ y ∈ l := by
  induction l with
  | nil => simp [sortDesc]
  | cons x xs ih =>
    rw [sortDesc]
    simp only [mem_insertDesc, ih, List.mem_cons]

theorem length_insertDesc (x : UserBalance) (l : List UserBalance) :
    (insertDesc x l).length = l.length + 1 := by
  induction l with
  | nil => rfl
  | cons y ys ih =>
    rw [insertDesc]
    split_ifs with h <;> simp [ih]

theorem length_sortDesc (l : List UserBalance) :
    (sortDesc l).length = l.length := by
  induction l with
  | nil => rfl
  | cons x xs ih => rw [sortDesc, length_insertDesc, ih]; rfl

theorem mem_creditorsOf {x : UserBalance} {bs : List UserBalance} :
    x ∈ creditorsOf bs ↔ x ∈ bs ∧ 0 < x.balance := by
  simp [creditorsOf, List.mem_filter]

theorem mem_debtorsOf {x : UserBalance} {bs : List UserBalance} :
    x ∈ debtorsOf bs ↔
      ∃ b ∈ bs, b.balance < 0 ∧ x = { userId := b.userId, balance := |b.balance| } := by
  simp only [debtorsOf, List.mem_map, List.mem_filter, decide_eq_true_eq]
  constructor
  · rintro ⟨b, ⟨hb, hneg⟩, rfl⟩
    exact ⟨b, hb, hneg, rfl⟩
  · rintro ⟨b, hb, hneg, rfl⟩
    exact ⟨b, ⟨hb, hneg⟩, rfl⟩

/-- Splitting an arbitrary balance list by sign: the total balance is the
creditor total minus the (absolute-value) debtor total; zero entries
contribute to neither. -/
theorem sumBal_split (bs : List UserBalance) :
    sumBal bs = sumBal (creditorsOf bs) - sumBal (debtorsOf bs) := by
  induction bs with
  | nil => simp [creditorsOf, debtorsOf, sumBal]
  | cons b bs ih =>
    rcases lt_trichotomy b.balance 0 with h | h | h
    · have h1 : creditorsOf (b :: bs) = creditorsOf bs := by
        simp [creditorsOf, List.filter_cons, (show ¬ (0 < b.balance) by linarith)]
      have h2 : debtorsOf (b :: bs) =
          { userId := b.userId, balance := |b.balance| } :: debtorsOf bs := by
        simp [debtorsOf, List.filter_cons, h]
      rw [sumBal_cons, h1, h2, sumBal_cons, ih]
      dsimp only
      rw [abs_of_neg h]
      ring
    · have h1 : creditorsOf (b :: bs) = creditorsOf bs := by
        simp [creditorsOf, List.filter_cons, h]
      have h2 : debtorsOf (b :: bs) = debtorsOf bs := by
        simp [debtorsOf, List.filter_cons, h]
      rw [sumBal_cons, h1, h2, ih, h]
      ring
    · have h1 : creditorsOf (b :: bs) = b :: creditorsOf bs := by
        simp [creditorsOf, List.filter_cons, h]
      have h2 : debtorsOf (b :: bs) = debtorsOf bs := by
        simp [debtorsOf, List.filter_cons, (show ¬ (b.balance < 0) by linarith)]
      rw [sumBal_cons, h1, h2, sumBal_cons, ih]
      ring

theorem greedyLoop_pos_aux : ∀ (n : ℕ) (cs ds : List UserBalance),
    cs.length + ds.length ≤ n →
    (∀ x ∈ cs, 0 < x.balance ∧ isCents x.balance) →
    (∀ x ∈ ds, 0 < x.balance ∧ isCents x.balance) →
    ∀ s ∈ greedyLoop cs ds, 0 < s.amount := by
  intro n
  induction n with
  | zero =>
    intro cs ds hn hc hd
    have hcs : cs = [] := List.length_eq_zero.mp (by omega)
    subst hcs
    simp [greedyLoop_nil_left]
  | succ n ih =>
    intro cs ds hn hc hd
    match cs, ds with
    | [], ds => simp [greedyLoop_nil_left]
    | c :: cs, [] => simp [greedyLoop_nil_right]
    | c :: cs, d :: ds =>
      obtain ⟨hc0, hcC⟩ := hc c (by simp)
      obtain ⟨hd0, hdC⟩ := hd d (by simp)
      have hcs : ∀ x ∈ cs, 0 < x.balance ∧ isCents x.balance :=
        fun x hx => hc x (by simp [hx])
      have hds : ∀ x ∈ ds, 0 < x.balance ∧ isCents x.balance :=
        fun x hx => hd x (by simp [hx])
      have hlen : cs.length + ds.length + 2 ≤ n + 1 := by simp at hn; omega
      rcases lt_trichotomy c.balance d.balance with h | h | h
      · rw [greedyLoop_lt cs ds h, if_pos hc0]
        intro s hs
        rcases List.mem_append.mp hs with hs | hs
        · have hse : s = ⟨d.userId, c.userId, roundHalfUp2 c.balance⟩ := by
            simpa using hs
          rw [hse]
          show 0 < roundHalfUp2 c.balance
          rw [roundHalfUp2_cents hcC hc0.le]
          exact hc0
        · exact ih cs ({ userId := d.userId, balance := d.balance - c.balance } :: ds)
            (by simp; omega) hcs
            (by intro x hx
                rcases List.mem_cons.mp hx with rfl | hx
                · exact ⟨by show (0 : ℚ) < d.balance - c.balance; linarith,
                    by show isCents (d.balance - c.balance); exact isCents_sub hdC hcC⟩
                · exact hds x hx)
            s hs
      · rw [greedyLoop_eq cs ds h, if_pos hc0]
        intro s hs
        rcases List.mem_append.mp hs with hs | hs
        · have hse : s = ⟨d.userId, c.userId, roundHalfUp2 c.balance⟩ := by
            simpa using hs
          rw [hse]
          show 0 < roundHalfUp2 c.balance
          rw [roundHalfUp2_cents hcC hc0.le]
          exact hc0
        · exact ih cs ds (by omega) hcs hds s hs
      · rw [greedyLoop_gt cs ds h, if_pos hd0]
        intro s hs
        rcases List.mem_append.mp hs with hs | hs
        · have hse : s = ⟨d.userId, c.userId, roundHalfUp2 d.balance⟩ := by
            simpa using hs
          rw [hse]
          show 0 < roundHalfUp2 d.balance
          rw [roundHalfUp2_cents hdC hd0.le]
          exact hd0
        · exact ih ({ userId := c.userId, balance := c.balance - d.balance } :: cs) ds
            (by simp; omega)
            (by intro x hx
                rcases List.mem_cons.mp hx with rfl | hx
                · exact ⟨by show (0 : ℚ) < c.balance - d.balance; linarith,
                    by show isCents (c.balance - d.balance); exact isCents_sub hcC hdC⟩
                · exact hcs x hx)
            hds s hs

/-- Every transfer emitted by the greedy loop on positive whole-cent
entries has a strictly positive amount. -/
theorem greedyLoop_pos (cs ds : List UserBalance)
    (hc : ∀ x ∈ cs, 0 < x.balance ∧ isCents x.balance)
    (hd : ∀ x ∈ ds, 0 < x.balance ∧ isCents x.balance) :
    ∀ s ∈ greedyLoop cs ds, 0 < s.amount :=
  greedyLoop_pos_aux (cs.length + ds.length) cs ds le_rfl hc hd

theorem greedyLoop_uids_aux : ∀ (n : ℕ) (cs ds : List UserBalance),
    cs.length + ds.length ≤ n →
    ∀ s ∈ greedyLoop cs ds,
      (∃ d ∈ ds, d.userId = s.fromUserId) ∧ (∃ c ∈ cs, c.userId = s.toUserId) := by
  intro n
  induction n with
  | zero =>
    intro cs ds hn
    have hcs : cs = [] := List.length_eq_zero.mp (by omega)
    subst hcs
    simp [greedyLoop_nil_left]
  | succ n ih =>
    intro cs ds hn
    match cs, ds with
    | [], ds => simp [greedyLoop_nil_left]
    | c :: cs, [] => simp [greedyLoop_nil_right]
    | c :: cs, d :: ds =>
      have hlen : cs.length + ds.length + 2 ≤ n + 1 := by simp at hn; omega
      rcases lt_trichotomy c.balance d.balance with h | h | h
      · rw [greedyLoop_lt cs ds h]
        intro s hs
        rcases List.mem_append.mp hs with hs | hs
        · rcases (show s = ⟨d.userId, c.userId, roundHalfUp2 c.balance⟩ by
              split_ifs at hs <;> simp_all) with rfl
          exact ⟨⟨d, by simp, rfl⟩, ⟨c, by simp, rfl⟩⟩
        · obtain ⟨⟨d2, hd2, hfrom⟩, ⟨c2, hc2, hto⟩⟩ :=
            ih cs ({ userId := d.userId, balance := d.balance - c.balance } :: ds)
              (by simp; omega) s hs
          refine ⟨?_, ⟨c2, by simp [hc2], hto⟩⟩
          rcases List.mem_cons.mp hd2 with rfl | hd2
          · exact ⟨d, by simp, hfrom⟩
          · exact ⟨d2, by simp [hd2], hfrom⟩
      · rw [greedyLoop_eq cs ds h]
        intro s hs
        rcases List.mem_append.mp hs with hs | hs
        · rcases (show s = ⟨d.userId, c.userId, roundHalfUp2 c.balance⟩ by
              split_ifs at hs <;> simp_all) with rfl
          exact ⟨⟨d, by simp, rfl⟩, ⟨c, by simp, rfl⟩⟩
        · obtain ⟨⟨d2, hd2, hfrom⟩, ⟨c2, hc2, hto⟩⟩ := ih cs ds (by omega) s hs
          exact ⟨⟨d2, by simp [hd2], hfrom⟩, ⟨c2, by simp [hc2], hto⟩⟩
      · rw [greedyLoop_gt cs ds h]
        intro s hs
        rcases List.mem_append.mp hs with hs | hs
        · rcases (show s = ⟨d.userId, c.userId, roundHalfUp2 d.balance⟩ by
              split_ifs at hs <;> simp_all) with rfl
          exact ⟨⟨d, by simp, rfl⟩, ⟨c, by simp, rfl⟩⟩
        · obtain ⟨⟨d2, hd2, hfrom⟩, ⟨c2, hc2, hto⟩⟩ :=
            ih ({ userId := c.userId, balance := c.balance - d.balance } :: cs) ds
              (by simp; omega) s hs
          refine ⟨⟨d2, by simp [hd2], hfrom⟩, ?_⟩
          rcases List.mem_cons.mp hc2 with rfl | hc2
          · exact ⟨c, by simp, hto⟩
          · exact ⟨c2, by simp [hc2], hto⟩

/-- Every transfer names a debtor-side entry as sender and a creditor-side
entry as receiver. -/
theorem greedyLoop_uids (cs ds : List UserBalance) :
    ∀ s ∈ greedyLoop cs ds,
      (∃ d ∈ ds, d.userId = s.fromUserId) ∧ (∃ c ∈ cs, c.userId = s.toUserId) :=
  greedyLoop_uids_aux (cs.length + ds.length) cs ds le_rfl

theorem greedyLoop_len_aux : ∀ (n : ℕ) (cs ds : List UserBalance),
    cs.length + ds.length ≤ n →
    (greedyLoop cs ds).length ≤ cs.length + ds.length - 1 := by
  intro n
  induction n with
  | zero =>
    intro cs ds hn
    have hcs : cs = [] := List.length_eq_zero.mp (by omega)
    subst hcs
    simp [greedyLoop_nil_left]
  | succ n ih =>
    intro cs ds hn
    match cs, ds with
    | [], ds => simp [greedyLoop_nil_left]
    | c :: cs, [] => simp [greedyLoop_nil_right]
    | c :: cs, d :: ds =>
      have hlen : cs.length + ds.length + 2 ≤ n + 1 := by simp at hn; omega
      have hemit : ∀ (P : Prop) [Decidable P] (x : Settlement),
          (if P then [x] else []).length ≤ 1 := by
        intro P _ x
        split_ifs <;> simp
      rcases lt_trichotomy c.balance d.balance with h | h | h
      · rw [greedyLoop_lt cs ds h]
        have h1 := ih cs ({ userId := d.userId, balance := d.balance - c.balance } :: ds)
          (by simp; omega)
        have h2 := hemit (0 < c.balance) ⟨d.userId, c.userId, roundHalfUp2 c.balance⟩
        rw [List.length_append]
        simp only [List.length_cons] at h1 ⊢
        omega
      · rw [greedyLoop_eq cs ds h]
        have h1 := ih cs ds (by omega)
        have h2 := hemit (0 < c.balance) ⟨d.userId, c.userId, roundHalfUp2 c.balance⟩
        rw [List.length_append]
        simp only [List.length_cons]
        omega
      · rw [greedyLoop_gt cs ds h]
        have h1 := ih ({ userId := c.userId, balance := c.balance - d.balance } :: cs) ds
          (by simp; omega)
        have h2 := hemit (0 < d.balance) ⟨d.userId, c.userId, roundHalfUp2 d.balance⟩
        rw [List.length_append]
        simp only [List.length_cons] at h1 ⊢
        omega

/-- Transfer-count bound for the greedy loop: at most one transfer per
cursor advance, and the last step advances both cursors. -/
theorem greedyLoop_len (cs ds : List UserBalance) :
    (greedyLoop cs ds).length ≤ cs.length + ds.length - 1 :=
  greedyLoop_len_aux (cs.length + ds.length) cs ds le_rfl

theorem sumShares_nil : sumShares [] = 0 := rfl

theorem sumShares_cons (s : ResolvedSplit) (l : List ResolvedSplit) :
    sumShares (s :: l) = s.amount + sumShares l := by
  simp [sumShares]

theorem sumShares_map_const (l : List SplitInput) (b : ℚ)
    (f : SplitInput → String) :
    sumShares (l.map (fun q => ⟨f q, b⟩)) = l.length * b := by
  induction l with
  | nil => simp [sumShares]
  | cons q qs ih =>
    rw [List.map_cons, sumShares_cons, ih]
    simp only [List.length_cons]
    push_cast
    ring

theorem mapWithIndexFrom_shift (b r : ℚ) (l : List SplitInput) (i : ℕ) :
    mapWithIndexFrom
      (fun index p =>
        ({ userId := p.userId
           amount := if index = 0 then b + r else b } : ResolvedSplit))
      (i + 1) l = l.map (fun p => ⟨p.userId, b⟩) := by
  induction l generalizing i with
  | nil => rfl
  | cons p ps ih => rw [mapWithIndexFrom, List.map_cons, ih]; rfl

/-- Head/tail form of `resolveEqualSplit`: the first participant receives
the base plus the whole remainder, the others the base. -/
theorem resolveEqualSplit_cons (total : ℚ) (p : SplitInput)
    (rest : List SplitInput) :
    resolveEqualSplit total (p :: rest) =
      ⟨p.userId,
        roundDown2 (total / ((rest.length : ℚ) + 1)) +
          (total - roundDown2 (total / ((rest.length : ℚ) + 1)) * ((rest.length : ℚ) + 1))⟩ ::
        rest.map (fun q => ⟨q.userId, roundDown2 (total / ((rest.length : ℚ) + 1))⟩) := by
  unfold resolveEqualSplit mapWithIndex
  rw [mapWithIndexFrom, mapWithIndexFrom_shift]
  simp only [List.length_cons]
  push_cast
  rfl

/-- The equal split always redistributes the full total. -/
theorem sumShares_resolveEqualSplit (total : ℚ) (p : SplitInput)
    (rest : List SplitInput) :
    sumShares (resolveEqualSplit total (p :: rest)) = total := by
  rw [resolveEqualSplit_cons, sumShares_cons, sumShares_map_const]
  dsimp only
  ring

theorem firstInvalidExact_eq_none_iff (ps : List SplitInput) :
    firstInvalidExact ps = none ↔ exactValuesOk ps := by
  induction ps with
  | nil => simp [firstInvalidExact, exactValuesOk]
  | cons p ps ih =>
    rcases hv : p.value with _ | v
    · have hred : firstInvalidExact (p :: ps) = some p.userId := by
        rw [firstInvalidExact, hv]
      rw [hred]
      simp only [exactValuesOk, List.mem_cons]
      constructor
      · intro h; exact absurd h (by simp)
      · intro h
        obtain ⟨w, hw, _⟩ := h p (Or.inl rfl)
        rw [hv] at hw
        exact absurd hw (by simp)
    · have hred : firstInvalidExact (p :: ps) =
          if v < 0 then some p.userId else firstInvalidExact ps := by
        rw [firstInvalidExact, hv]
      rw [hred]
      split_ifs with hneg
      · simp only [exactValuesOk, List.mem_cons]
        constructor
        · intro h; exact absurd h (by simp)
        · intro h
          obtain ⟨w, hw, hw0⟩ := h p (Or.inl rfl)
          rw [hv] at hw
          obtain rfl : v = w := by simpa using hw
          linarith
      · rw [ih]
        unfold exactValuesOk
        constructor
        · intro h q hq
          rcases List.mem_cons.mp hq with rfl | hq
          · exact ⟨v, hv, by linarith⟩
          · exact h q hq
        · intro h q hq
          exact h q (List.mem_cons_of_mem _ hq)

theorem firstInvalidPercentage_eq_none_iff (ps : List SplitInput) :
    firstInvalidPercentage ps = none ↔ percentValuesOk ps := by
  induction ps with
  | nil => simp [firstInvalidPercentage, percentValuesOk]
  | cons p ps ih =>
    rcases hv : p.value with _ | v
    · have hred : firstInvalidPercentage (p :: ps) = some p.userId := by
        rw [firstInvalidPercentage, hv]
      rw [hred]
      simp only [percentValuesOk, List.mem_cons]
      constructor
      · intro h; exact absurd h (by simp)
      · intro h
        obtain ⟨w, hw, _⟩ := h p (Or.inl rfl)
        rw [hv] at hw
        exact absurd hw (by simp)
    · have hred : firstInvalidPercentage (p :: ps) =
          if v < 0 ∨ 100 < v then some p.userId else firstInvalidPercentage ps := by
        rw [firstInvalidPercentage, hv]
      rw [hred]
      split_ifs with hbad
      · simp only [percentValuesOk, List.mem_cons]
        constructor
        · intro h; exact absurd h (by simp)
        · intro h
          obtain ⟨w, hw, hw0, hw100⟩ := h p (Or.inl rfl)
          rw [hv] at hw
          obtain rfl : v = w := by simpa using hw
          rcases hbad with hb | hb <;> linarith
      · rw [ih]
        unfold percentValuesOk
        constructor
        · intro h q hq
          rcases List.mem_cons.mp hq with rfl | hq
          · push_neg at hbad
            exact ⟨v, hv, hbad.1, hbad.2⟩
          · exact h q hq
        · intro h q hq
          exact h q (List.mem_cons_of_mem _ hq)

theorem resolveExactSplit_ok_of (total : ℚ) (ps : List SplitInput)
    (h1 : exactValuesOk ps) (h2 : |valuesSum ps - total| ≤ 1 / 100) :
    resolveExactSplit total ps =
      .ok (ps.map (fun p => ⟨p.userId, roundHalfUp2 (p.value.getD 0)⟩)) := by
  unfold resolveExactSplit
  rw [(firstInvalidExact_eq_none_iff ps).mpr h1]
  show (if |(ps.map (fun p => p.value.getD 0)).sum - total| > 1 / 100 then _ else _) = _
  rw [if_neg (by rw [valuesSum] at h2; push_neg; exact h2)]

theorem resolveExactSplit_err_missing (total : ℚ) (ps : List SplitInput)
    (u : String) (h : firstInvalidExact ps = some u) :
    resolveExactSplit total ps = .error (.invalidExactAmount u) := by
  unfold resolveExactSplit
  rw [h]

theorem resolveExactSplit_err_mismatch (total : ℚ) (ps : List SplitInput)
    (h1 : exactValuesOk ps) (h2 : |valuesSum ps - total| > 1 / 100) :
    resolveExactSplit total ps =
      .error (.exactSumMismatch (valuesSum ps) total) := by
  unfold resolveExactSplit
  rw [(firstInvalidExact_eq_none_iff ps).mpr h1]
  show (if |(ps.map (fun p => p.value.getD 0)).sum - total| > 1 / 100 then _ else _) = _
  rw [if_pos (by rw [valuesSum] at h2; exact h2)]
  rw [valuesSum]

theorem resolveExactSplit_ok_iff (total : ℚ) (ps : List SplitInput) :
    (∃ shares, resolveExactSplit total ps = .ok shares) ↔
      exactValuesOk ps ∧ |valuesSum ps - total| ≤ 1 / 100 := by
  constructor
  · rintro ⟨shares, hok⟩
    by_cases h1 : exactValuesOk ps
    · by_cases h2 : |valuesSum ps - total| ≤ 1 / 100
      · exact ⟨h1, h2⟩
      · rw [resolveExactSplit_err_mismatch total ps h1 (by linarith [abs_nonneg (valuesSum ps - total)]; )] at hok
        · exact absurd hok (by simp)
    · obtain ⟨u, hu⟩ := Option.ne_none_iff_exists.mp
        (fun hn => h1 ((firstInvalidExact_eq_none_iff ps).mp hn))
      rw [resolveExactSplit_err_missing total ps u hu.symm] at hok
      exact absurd hok (by simp)
  · rintro ⟨h1, h2⟩
    exact ⟨_, resolveExactSplit_ok_of total ps h1 h2⟩

theorem resolveExactSplit_ok_shape (total : ℚ) (ps : List SplitInput)
    (shares : List ResolvedSplit)
    (h : resolveExactSplit total ps = .ok shares) :
    shares = ps.map (fun p => ⟨p.userId, roundHalfUp2 (p.value.getD 0)⟩) := by
  obtain ⟨h1, h2⟩ := (resolveExactSplit_ok_iff total ps).mp ⟨shares, h⟩
  rw [resolveExactSplit_ok_of total ps h1 h2] at h
  exact (Except.ok.injEq _ _ |>.mp h).symm

theorem resolvePercentageSplit_err_invalid (total : ℚ) (ps : List SplitInput)
    (u : String) (h : firstInvalidPercentage ps = some u) :
    resolvePercentageSplit total ps = .error (.invalidPercentage u) := by
  unfold resolvePercentageSplit
  rw [h]

theorem resolvePercentageSplit_err_mismatch (total : ℚ) (ps : List SplitInput)
    (h1 : percentValuesOk ps) (h2 : |valuesSum ps - 100| > 1 / 100) :
    resolvePercentageSplit total ps =
      .error (.percentageSumMismatch (valuesSum ps)) := by
  unfold resolvePercentageSplit
  rw [(firstInvalidPercentage_eq_none_iff ps).mpr h1]
  show (if |(ps.map (fun p => p.value.getD 0)).sum - 100| > 1 / 100 then _ else _) = _
  rw [if_pos (by rw [valuesSum] at h2; exact h2)]
  rw [valuesSum]

theorem resolvePercentageSplit_ok_of (total : ℚ) (p : SplitInput)
    (rest : List SplitInput) (h1 : percentValuesOk (p :: rest))
    (h2 : |valuesSum (p :: rest) - 100| ≤ 1 / 100) :
    resolvePercentageSplit total (p :: rest) =
      .ok (⟨p.userId,
            truncShare total p +
              (if 0 < total - truncSum total (p :: rest) then
                total - truncSum total (p :: rest)
               else 0)⟩ ::
          rest.map (fun q => ⟨q.userId, truncShare total q⟩)) := by
  unfold resolvePercentageSplit
  rw [(firstInvalidPercentage_eq_none_iff _).mpr h1]
  show (if |((p :: rest).map (fun p => p.value.getD 0)).sum - 100| > 1 / 100
        then _ else _) = _
  rw [if_neg (by rw [valuesSum] at h2; push_neg; exact h2)]
  show (if 0 < total - (((p :: rest).map fun q =>
          ({ userId := q.userId
             amount := roundDown2 (total * q.value.getD 0 / 100) } : ResolvedSplit)).map
            (fun s => s.amount)).sum
        then _ else _) = _
  have hsum : (((p :: rest).map fun q =>
      ({ userId := q.userId
         amount := roundDown2 (total * q.value.getD 0 / 100) } : ResolvedSplit)).map
        (fun s => s.amount)).sum = truncSum total (p :: rest) := by
    rw [truncSum, List.map_map]
    rfl
  rw [hsum]
  split_ifs with hrem <;> simp [truncShare]

theorem resolvePercentageSplit_ok_iff (total : ℚ) (ps : List SplitInput) :
    (∃ shares, resolvePercentageSplit total ps = .ok shares) ↔
      percentValuesOk ps ∧ |valuesSum ps - 100| ≤ 1 / 100 := by
  constructor
  · rintro ⟨shares, hok⟩
    by_cases h1 : percentValuesOk ps
    · by_cases h2 : |valuesSum ps - 100| ≤ 1 / 100
      · exact ⟨h1, h2⟩
      · rw [resolvePercentageSplit_err_mismatch total ps h1 (by push_neg at h2; exact h2)] at hok
        exact absurd hok (by simp)
    · obtain ⟨u, hu⟩ := Option.ne_none_iff_exists.mp
        (fun hn => h1 ((firstInvalidPercentage_eq_none_iff ps).mp hn))
      rw [resolvePercentageSplit_err_invalid total ps u hu.symm] at hok
      exact absurd hok (by simp)
  · rintro ⟨h1, h2⟩
    match ps with
    | [] =>
      exfalso
      simp [valuesSum] at h2
      norm_num at h2
    | p :: rest =>
      exact ⟨_, resolvePercentageSplit_ok_of total p rest h1 h2⟩

theorem sumShares_map (l : List SplitInput) (g : SplitInput → String)
    (f : SplitInput → ℚ) :
    sumShares (l.map (fun q => ⟨g q, f q⟩)) = (l.map f).sum := by
  induction l with
  | nil => simp [sumShares]
  | cons q qs ih => simp [sumShares] at ih ⊢; rw [ih]

/-- The successful percentage resolution redistributes either the whole
total (when the truncated shares undershoot it) or the truncated-share sum
(when they overshoot it, which is possible within the 0.01 percentage
tolerance). -/
theorem resolvePercentageSplit_sum (total : ℚ) (ps : List SplitInput)
    (shares : List ResolvedSplit)
    (h : resolvePercentageSplit total ps = .ok shares) :
    sumShares shares = max total (truncSum total ps) := by
  obtain ⟨h1, h2⟩ := (resolvePercentageSplit_ok_iff total ps).mp ⟨shares, h⟩
  match ps with
  | [] =>
    exfalso
    simp [valuesSum] at h2
    norm_num at h2
  | p :: rest =>
    rw [resolvePercentageSplit_ok_of total p rest h1 h2] at h
    obtain rfl : shares = _ := ((Except.ok.injEq _ _).mp h).symm
    rw [sumShares_cons]
    have hmap : sumShares (rest.map (fun q => ⟨q.userId, truncShare total q⟩)) =
        (rest.map (truncShare total)).sum :=
      sumShares_map rest (fun q => q.userId) (truncShare total)
    dsimp only
    rw [hmap]
    have hts : truncSum total (p :: rest) =
        truncShare total p + (rest.map (truncShare total)).sum := by
      rw [truncSum, List.map_cons, List.sum_cons]
    split_ifs with hrem
    · rw [max_eq_left (by rw [hts] at hrem ⊢; linarith)]
      rw [hts] at hrem ⊢
      ring
    · push_neg at hrem
      rw [max_eq_right (by rw [hts] at hrem ⊢; linarith)]
      rw [hts]
      ring

theorem exists_ne_nil_length {ps : List SplitInput} (h : ps ≠ []) :
    ¬ ps.length = 0 := by
  simpa using fun hh => h (List.length_eq_zero.mp hh)

theorem resolveSplits_equal (t : ℚ) (ps : List SplitInput) (payer : String)
    (h : ps ≠ []) :
    resolveSplits t .EQUAL ps payer = .ok (resolveEqualSplit t ps) := by
  rw [resolveSplits, if_neg (exists_ne_nil_length h)]

theorem resolveSplits_exact (t : ℚ) (ps : List SplitInput) (payer : String)
    (h : ps ≠ []) :
    resolveSplits t .EXACT ps payer = resolveExactSplit t ps := by
  rw [resolveSplits, if_neg (exists_ne_nil_length h)]

theorem resolveSplits_percentage (t : ℚ) (ps : List SplitInput) (payer : String)
    (h : ps ≠ []) :
    resolveSplits t .PERCENTAGE ps payer = resolvePercentageSplit t ps := by
  rw [resolveSplits, if_neg (exists_ne_nil_length h)]

theorem dedup_length_eq_iff {l : List String} :
    l.dedup.length = l.length ↔ l.Nodup := by
  constructor
  · intro h
    have heq := (List.dedup_sublist l).eq_of_length h
    rw [← heq]
    exact List.nodup_dedup l
  · intro h
    rw [List.dedup_eq_self.mpr h]

/-- C10: the output of `resolveSplits` is independent of its `payerId`
argument: for any two payer ids the result is identical (the argument is
never read), so in particular the remainder policy is unaffected by who
the payer is. -/
theorem C10_payer_independent (totalAmount : ℚ) (splitType : SplitType)
    (participants : List SplitInput) (payerA payerB : String) :
    resolveSplits totalAmount splitType participants payerA =
      resolveSplits totalAmount splitType participants payerB := rfl

/-- C3: for every Equal-split input with non-empty participants and a
positive total, every participant receives
`base = floor(totalAmount / count, 2 decimals)` except the first in input
order, who receives `base` plus the whole remainder
`totalAmount - base * count`; in particular splitting 100.00 equally among
A, B, C gives 33.34, 33.33, 33.33. -/
theorem C3_equal_split :
    (∀ (totalAmount : ℚ) (p : SplitInput) (rest : List SplitInput)
        (payerId : String), 0 < totalAmount →
      resolveSplits totalAmount .EQUAL (p :: rest) payerId =
        .ok (⟨p.userId,
              floor2 (totalAmount / ((rest.length : ℚ) + 1)) +
                (totalAmount -
                  floor2 (totalAmount / ((rest.length : ℚ) + 1)) *
                    ((rest.length : ℚ) + 1))⟩ ::
            rest.map (fun q =>
              ⟨q.userId, floor2 (totalAmount / ((rest.length : ℚ) + 1))⟩))) ∧
    resolveSplits 100 .EQUAL [⟨"A", none⟩, ⟨"B", none⟩, ⟨"C", none⟩] "A" =
      .ok [⟨"A", 3334 / 100⟩, ⟨"B", 3333 / 100⟩, ⟨"C", 3333 / 100⟩] := by
  constructor
  · intro totalAmount p rest payerId hpos
    rw [resolveSplits_equal _ _ _ (by simp), resolveEqualSplit_cons]
    have hq : (0 : ℚ) ≤ totalAmount / ((rest.length : ℚ) + 1) := by positivity
    rw [roundDown2_eq_floor2 _ hq]
  · rw [resolveSplits_equal _ _ _ (by simp)]
    simp [resolveEqualSplit, mapWithIndex, mapWithIndexFrom, roundDown2, ratTrunc]
    norm_num

/-- C3 witness: the general statement applied to the concrete input
100.00 split equally among A, B, C. -/
theorem C3_equal_split_witness :
    resolveSplits 100 .EQUAL [⟨"A", none⟩, ⟨"B", none⟩, ⟨"C", none⟩] "payer" =
      .ok [⟨"A", 3334 / 100⟩, ⟨"B", 3333 / 100⟩, ⟨"C", 3333 / 100⟩] := by
  have h := C3_equal_split.1 100 ⟨"A", none⟩ [⟨"B", none⟩, ⟨"C", none⟩] "payer"
    (by norm_num)
  rw [h]
  norm_num [floor2]

/-- C6: an empty participant list, a non-positive total, or a duplicate
participant id makes the expense-creation pipeline fail with the
validation message naming the violated rule, before `resolveSplits` is
ever reached, and no shares are produced. -/
theorem C6_validation_guard (amount : ℚ) (splitType : SplitType)
    (participants : List SplitInput) (payerId : String)
    (h : participants = [] ∨ amount ≤ 0 ∨
      ¬ (participants.map (fun p => p.userId)).Nodup) :
    ∃ m, createExpenseResolve amount splitType participants payerId =
        .error (Sum.inl m) ∧
      ((m = ValidationMsg.noParticipants ∧ participants = []) ∨
       (m = ValidationMsg.nonPositiveAmount ∧ amount ≤ 0) ∨
       (m = ValidationMsg.duplicateParticipants ∧
         ¬ (participants.map (fun p => p.userId)).Nodup)) := by
  by_cases h1 : participants = []
  · refine ⟨.noParticipants, ?_, Or.inl ⟨rfl, h1⟩⟩
    subst h1
    have hv : ∃ tl, validateSplitInput splitType amount [] =
        ValidationMsg.noParticipants :: tl := by
      simp only [validateSplitInput, List.length_nil, if_pos rfl]
      exact ⟨_, rfl⟩
    obtain ⟨tl, htl⟩ := hv
    rw [createExpenseResolve, htl]
  · by_cases h2 : amount ≤ 0
    · refine ⟨.nonPositiveAmount, ?_, Or.inr (Or.inl ⟨rfl, h2⟩)⟩
      have hv : ∃ tl, validateSplitInput splitType amount participants =
          ValidationMsg.nonPositiveAmount :: tl := by
        simp only [validateSplitInput, if_neg (exists_ne_nil_length h1), if_pos h2]
        exact ⟨_, rfl⟩
      obtain ⟨tl, htl⟩ := hv
      rw [createExpenseResolve, htl]
    · have h3 : ¬ (participants.map (fun p => p.userId)).Nodup := by tauto
      refine ⟨.duplicateParticipants, ?_, Or.inr (Or.inr ⟨rfl, h3⟩)⟩
      have hd : (participants.map (fun p => p.userId)).dedup.length ≠
          (participants.map (fun p => p.userId)).length :=
        fun hh => h3 (dedup_length_eq_iff.mp hh)
      have hv : ∃ tl, validateSplitInput splitType amount participants =
          ValidationMsg.duplicateParticipants :: tl := by
        simp only [validateSplitInput, if_neg (exists_ne_nil_length h1),
          if_neg h2, if_pos hd]
        exact ⟨_, rfl⟩
      obtain ⟨tl, htl⟩ := hv
      rw [createExpenseResolve, htl]

/-- C6 witness: a duplicate participant id is rejected with the
duplicate-participants message. -/
theorem C6_validation_guard_witness :
    ∃ m, createExpenseResolve 100 .EQUAL [⟨"A", none⟩, ⟨"A", none⟩] "A" =
        .error (Sum.inl m) ∧
      ((m = ValidationMsg.noParticipants ∧
          ([⟨"A", none⟩, ⟨"A", none⟩] : List SplitInput) = []) ∨
       (m = ValidationMsg.nonPositiveAmount ∧ (100 : ℚ) ≤ 0) ∨
       (m = ValidationMsg.duplicateParticipants ∧
         ¬ (([⟨"A", none⟩, ⟨"A", none⟩] : List SplitInput).map
              (fun p => p.userId)).Nodup)) :=
  C6_validation_guard 100 .EQUAL [⟨"A", none⟩, ⟨"A", none⟩] "A"
    (Or.inr (Or.inr (by simp)))

/-- C2: for every list of 2-decimal money balances summing to zero, the
transfer amounts emitted by `simplifyBalances` sum exactly to the total
positive balance (every cent owed is covered by the emitted transfers). -/
theorem C2_simplifier_conservation (balances : List UserBalance)
    (hcents : ∀ b ∈ balances, isCents b.balance)
    (hzero : sumBal balances = 0) :
    sumAmounts (simplifyBalances balances) = sumBal (creditorsOf balances) := by
  have hc : ∀ x ∈ sortDesc (creditorsOf balances),
      0 < x.balance ∧ isCents x.balance := by
    intro x hx
    rw [mem_sortDesc, mem_creditorsOf] at hx
    exact ⟨hx.2, hcents x hx.1⟩
  have hd : ∀ x ∈ sortDesc (debtorsOf balances),
      0 < x.balance ∧ isCents x.balance := by
    intro x hx
    rw [mem_sortDesc, mem_debtorsOf] at hx
    obtain ⟨b, hb, hneg, rfl⟩ := hx
    refine ⟨?_, ?_⟩
    · show 0 < |b.balance|
      exact abs_pos.mpr (ne_of_lt hneg)
    · show isCents |b.balance|
      exact isCents_abs (hcents b hb)
  rw [simplifyBalances, greedyLoop_sum _ _ hc hd, sumBal_sortDesc, sumBal_sortDesc]
  have hsplit := sumBal_split balances
  rw [hzero] at hsplit
  have hPN : sumBal (debtorsOf balances) = sumBal (creditorsOf balances) := by
    linarith
  rw [hPN, min_self]

/-- C2 witness: the conservation statement at the concrete balance set
B:+5, C:+5, A:-10. -/
theorem C2_simplifier_conservation_witness :
    sumAmounts (simplifyBalances [⟨"B", 5⟩, ⟨"C", 5⟩, ⟨"A", -10⟩]) =
      sumBal (creditorsOf [⟨"B", 5⟩, ⟨"C", 5⟩, ⟨"A", -10⟩]) :=
  C2_simplifier_conservation [⟨"B", 5⟩, ⟨"C", 5⟩, ⟨"A", -10⟩]
    (by
      intro b hb
      simp only [List.mem_cons, List.not_mem_nil, or_false] at hb
      rcases hb with rfl | rfl | rfl <;> norm_num [isCents])
    (by norm_num [sumBal])

/-- C7: on 2-decimal money balances, every transfer emitted by
`simplifyBalances` has a strictly positive amount. -/
theorem C7_transfer_positive (balances : List UserBalance)
    (hcents : ∀ b ∈ balances, isCents b.balance) :
    ∀ s ∈ simplifyBalances balances, 0 < s.amount := by
  have hc : ∀ x ∈ sortDesc (creditorsOf balances),
      0 < x.balance ∧ isCents x.balance := by
    intro x hx
    rw [mem_sortDesc, mem_creditorsOf] at hx
    exact ⟨hx.2, hcents x hx.1⟩
  have hd : ∀ x ∈ sortDesc (debtorsOf balances),
      0 < x.balance ∧ isCents x.balance := by
    intro x hx
    rw [mem_sortDesc, mem_debtorsOf] at hx
    obtain ⟨b, hb, hneg, rfl⟩ := hx
    refine ⟨?_, ?_⟩
    · show 0 < |b.balance|
      exact abs_pos.mpr (ne_of_lt hneg)
    · show isCents |b.balance|
      exact isCents_abs (hcents b hb)
  rw [simplifyBalances]
  exact greedyLoop_pos _ _ hc hd

/-- C7 witness: positivity of the first transfer emitted at the concrete
balance set B:+5, C:+5, A:-10. -/
theorem C7_transfer_positive_witness :
    0 < (Settlement.mk "A" "B" 5).amount :=
  C7_transfer_positive [⟨"B", 5⟩, ⟨"C", 5⟩, ⟨"A", -10⟩]
    (by
      intro b hb
      simp only [List.mem_cons, List.not_mem_nil, or_false] at hb
      rcases hb with rfl | rfl | rfl <;> norm_num [isCents])
    ⟨"A", "B", 5⟩
    (by norm_num [simplifyBalances, creditorsOf, debtorsOf, sortDesc,
      insertDesc, greedyLoop, roundHalfUp2])

/-- C8: `simplifyBalances` is a total function (the embedding returns a
plain list for every input, mirroring a source with no throw site), and a
participant all of whose entries have balance exactly zero appears in no
emitted transfer, neither as sender nor as receiver. -/
theorem C8_zero_balance_excluded (balances : List UserBalance) (u : String)
    (hu : ∀ b ∈ balances, b.userId = u → b.balance = 0) :
    ∀ s ∈ simplifyBalances balances, s.fromUserId ≠ u ∧ s.toUserId ≠ u := by
  intro s hs
  rw [simplifyBalances] at hs
  obtain ⟨⟨d, hdmem, hfrom⟩, ⟨c, hcmem, hto⟩⟩ := greedyLoop_uids _ _ s hs
  constructor
  · intro hequ
    rw [mem_sortDesc, mem_debtorsOf] at hdmem
    obtain ⟨b, hb, hneg, rfl⟩ := hdmem
    have hbu : b.userId = u := by
      have : b.userId = s.fromUserId := hfrom
      rw [this, hequ]
    have := hu b hb hbu
    linarith
  · intro hequ
    rw [mem_sortDesc, mem_creditorsOf] at hcmem
    obtain ⟨hb, hpos⟩ := hcmem
    have hbu : c.userId = u := by rw [hto, hequ]
    have := hu c hb hbu
    linarith

/-- C8 witness: the zero-balance participant N is excluded from the
transfer emitted at the concrete balance set B:+5, N:0, A:-5. -/
theorem C8_zero_balance_excluded_witness :
    (Settlement.mk "A" "B" 5).fromUserId ≠ "N" ∧
      (Settlement.mk "A" "B" 5).toUserId ≠ "N" :=
  C8_zero_balance_excluded [⟨"B", 5⟩, ⟨"N", 0⟩, ⟨"A", -5⟩] "N"
    (by
      intro b hb
      simp only [List.mem_cons, List.not_mem_nil, or_false] at hb
      rcases hb with rfl | rfl | rfl <;> simp)
    ⟨"A", "B", 5⟩
    (by norm_num [simplifyBalances, creditorsOf, debtorsOf, sortDesc,
      insertDesc, greedyLoop, roundHalfUp2])

/-- C9 counterexample: at balances B:+5, C:+5, A:-10 the loop emits 2
transfers while min(creditors, debtors) = min 2 1 = 1, refuting the
claimed bound. -/
theorem C9_transfer_count_counterexample :
    ¬ ((simplifyBalances [⟨"B", 5⟩, ⟨"C", 5⟩, ⟨"A", -10⟩]).length ≤
        min (creditorsOf [⟨"B", 5⟩, ⟨"C", 5⟩, ⟨"A", -10⟩]).length
          (debtorsOf [⟨"B", 5⟩, ⟨"C", 5⟩, ⟨"A", -10⟩]).length) := by
  norm_num [simplifyBalances, creditorsOf, debtorsOf, sortDesc, insertDesc,
    greedyLoop, roundHalfUp2]

/-- C9 amended: if either side is empty no transfer is emitted, and
otherwise the transfer count is at most creditors + debtors - 1 (not
min(creditors, debtors)). -/
theorem C9_transfer_count_amended (balances : List UserBalance) :
    ((creditorsOf balances = [] ∨ debtorsOf balances = []) →
        simplifyBalances balances = []) ∧
      (creditorsOf balances ≠ [] → debtorsOf balances ≠ [] →
        (simplifyBalances balances).length ≤
          (creditorsOf balances).length + (debtorsOf balances).length - 1) := by
  constructor
  · rintro (h | h) <;> rw [simplifyBalances, h]
    · rw [show sortDesc [] = [] from rfl, greedyLoop_nil_left]
    · rw [show sortDesc [] = [] from rfl, greedyLoop_nil_right]
  · intro h1 h2
    have hb := greedyLoop_len (sortDesc (creditorsOf balances))
      (sortDesc (debtorsOf balances))
    rw [length_sortDesc, length_sortDesc] at hb
    rw [simplifyBalances]
    exact hb

/-- C9 amended witness: the bound at the concrete balance set B:+5, C:+5,
A:-10, where 2 transfers are emitted and the bound is 2 + 1 - 1 = 2. -/
theorem C9_transfer_count_amended_witness :
    (simplifyBalances [⟨"B", 5⟩, ⟨"C", 5⟩, ⟨"A", -10⟩]).length ≤
      (creditorsOf [⟨"B", 5⟩, ⟨"C", 5⟩, ⟨"A", -10⟩]).length +
        (debtorsOf [⟨"B", 5⟩, ⟨"C", 5⟩, ⟨"A", -10⟩]).length - 1 :=
  (C9_transfer_count_amended [⟨"B", 5⟩, ⟨"C", 5⟩, ⟨"A", -10⟩]).2
    (by norm_num [creditorsOf, List.filter]; exact List.cons_ne_nil _ _)
    (by norm_num [debtorsOf, List.filter])

/-- C5 counterexample: with a missing value the exact split does fail,
but with the invalid-amount error, not with the sum-mismatch error
reporting both sums that the claim demands for every failing input. -/
theorem C5_exact_split_counterexample :
    resolveExactSplit 100 [⟨"A", none⟩] = .error (.invalidExactAmount "A") ∧
    isSumMismatchError (resolveExactSplit 100 [⟨"A", none⟩]) = false ∧
    ([⟨"A", none⟩] : List SplitInput).any (fun p => p.value.isNone) = true :=
  ⟨rfl, rfl, rfl⟩

/-- C5 amended: the exact split fails if and only if some value is
missing or negative or the value sum is off by more than 0.01; the
failure carries the sum-mismatch error reporting both sums exactly when
all values are present and non-negative; on success each share is the
supplied value rounded to 2 decimals; and resolving 100.00 as Exact with
values 30 and 30 fails with the sum-mismatch error reporting 60 and 100. -/
theorem C5_exact_split_amended :
    (∀ (totalAmount : ℚ) (ps : List SplitInput),
      ((∃ shares, resolveExactSplit totalAmount ps = .ok shares) ↔
        exactValuesOk ps ∧ |valuesSum ps - totalAmount| ≤ 1 / 100) ∧
      (exactValuesOk ps → |valuesSum ps - totalAmount| > 1 / 100 →
        resolveExactSplit totalAmount ps =
          .error (.exactSumMismatch (valuesSum ps) totalAmount)) ∧
      (∀ shares, resolveExactSplit totalAmount ps = .ok shares →
        shares = ps.map (fun p => ⟨p.userId, roundHalfUp2 (p.value.getD 0)⟩))) ∧
    resolveSplits 100 .EXACT [⟨"A", some 30⟩, ⟨"B", some 30⟩] "A" =
      .error (.exactSumMismatch 60 100) := by
  constructor
  · intro totalAmount ps
    exact ⟨resolveExactSplit_ok_iff totalAmount ps,
      fun h1 h2 => resolveExactSplit_err_mismatch totalAmount ps h1 h2,
      fun shares h => resolveExactSplit_ok_shape totalAmount ps shares h⟩
  · rw [resolveSplits_exact _ _ _ (by simp)]
    have hv : valuesSum ([⟨"A", some 30⟩, ⟨"B", some 30⟩] : List SplitInput) = 60 := by
      norm_num [valuesSum]
    have herr := resolveExactSplit_err_mismatch 100
      [⟨"A", some 30⟩, ⟨"B", some 30⟩]
      (by
        intro p hp
        simp only [List.mem_cons, List.not_mem_nil, or_false] at hp
        rcases hp with rfl | rfl
        · exact ⟨30, rfl, by norm_num⟩
        · exact ⟨30, rfl, by norm_num⟩)
      (by
        rw [hv, show (60 : ℚ) - 100 = -40 by norm_num, abs_neg,
          abs_of_nonneg (by norm_num : (0 : ℚ) ≤ 40)]
        norm_num)
    rw [herr, hv]

/-- C5 amended witness: values 60 and 40 against a total of 100 resolve
successfully. -/
theorem C5_exact_split_amended_witness :
    ∃ shares, resolveExactSplit 100 [⟨"A", some 60⟩, ⟨"B", some 40⟩] =
      .ok shares :=
  ((C5_exact_split_amended.1 100 [⟨"A", some 60⟩, ⟨"B", some 40⟩]).1).mpr
    ⟨by
      intro p hp
      simp only [List.mem_cons, List.not_mem_nil, or_false] at hp
      rcases hp with rfl | rfl
      · exact ⟨60, rfl, by norm_num⟩
      · exact ⟨40, rfl, by norm_num⟩,
     by norm_num [valuesSum]⟩

/-- C4: for a positive total, the percentage split succeeds exactly when
every participant supplies a value in [0, 100] and the values sum to 100
within tolerance 0.01; on success each share is
`floor(totalAmount * value / 100, 2 decimals)` and the remainder
`totalAmount` minus the floored-share sum, if strictly positive, goes
entirely to the first participant. -/
theorem C4_percentage_split (totalAmount : ℚ) (ps : List SplitInput)
    (hpos : 0 < totalAmount) :
    ((∃ shares, resolvePercentageSplit totalAmount ps = .ok shares) ↔
      percentValuesOk ps ∧ |valuesSum ps - 100| ≤ 1 / 100) ∧
    (∀ (p : SplitInput) (rest : List SplitInput)
        (shares : List ResolvedSplit),
      ps = p :: rest →
      resolvePercentageSplit totalAmount ps = .ok shares →
      shares = ⟨p.userId,
            flooredShare totalAmount p +
              (if 0 < totalAmount - flooredSum totalAmount ps then
                totalAmount - flooredSum totalAmount ps
               else 0)⟩ ::
          rest.map (fun q => ⟨q.userId, flooredShare totalAmount q⟩)) := by
  constructor
  · exact resolvePercentageSplit_ok_iff totalAmount ps
  · rintro p rest shares rfl hok
    obtain ⟨h1, h2⟩ :=
      (resolvePercentageSplit_ok_iff totalAmount (p :: rest)).mp ⟨shares, hok⟩
    rw [resolvePercentageSplit_ok_of totalAmount p rest h1 h2] at hok
    obtain rfl : shares = _ := ((Except.ok.injEq _ _).mp hok).symm
    have hconv : ∀ q ∈ p :: rest,
        truncShare totalAmount q = flooredShare totalAmount q := by
      intro q hq
      obtain ⟨v, hv, hv0, _⟩ := h1 q hq
      rw [truncShare, flooredShare, roundDown2_eq_floor2]
      simp only [hv, Option.getD_some]
      positivity
    have hsum : truncSum totalAmount (p :: rest) =
        flooredSum totalAmount (p :: rest) := by
      rw [truncSum, flooredSum]
      exact congrArg List.sum (List.map_congr_left hconv)
    rw [List.cons.injEq]
    constructor
    · rw [ResolvedSplit.mk.injEq]
      exact ⟨rfl, by rw [hconv p (by simp), hsum]⟩
    · exact List.map_congr_left
        (fun q hq => by rw [hconv q (List.mem_cons_of_mem _ hq)])

/-- C4 witness: a single participant at 100 percent of a total of 100
resolves successfully. -/
theorem C4_percentage_split_witness :
    ∃ shares, resolvePercentageSplit 100 [⟨"A", some 100⟩] = .ok shares :=
  ((C4_percentage_split 100 [⟨"A", some 100⟩] (by norm_num)).1).mpr
    ⟨by
      intro p hp
      simp only [List.mem_cons, List.not_mem_nil, or_false] at hp
      subst hp
      exact ⟨100, rfl, by norm_num, by norm_num⟩,
     by norm_num [valuesSum]⟩

/-- C1 counterexample: two accepted inputs whose resolved shares do not
sum to the total.  Exact values 50.005 and 49.995 sum to exactly 100 and
pass every check, yet the independently rounded shares sum to 100.01;
percentages 50.005 and 50.005 pass the 0.01 tolerance against a total of
10000, yet the floored shares sum to 10001 and the negative remainder is
never redistributed. -/
theorem C1_sum_invariant_counterexample :
    ((resolveSplits 100 .EXACT
        [⟨"A", some (10001 / 200)⟩, ⟨"B", some (9999 / 200)⟩] "A").map
          sumShares = .ok (10001 / 100) ∧
      (10001 / 100 : ℚ) ≠ 100) ∧
    ((resolveSplits 10000 .PERCENTAGE
        [⟨"A", some (10001 / 200)⟩, ⟨"B", some (10001 / 200)⟩] "A").map
          sumShares = .ok 10001 ∧
      (10001 : ℚ) ≠ 10000) := by
  refine ⟨⟨?_, by norm_num⟩, ⟨?_, by norm_num⟩⟩
  · rw [resolveSplits_exact _ _ _ (by simp)]
    have h1 : exactValuesOk
        [⟨"A", some (10001 / 200)⟩, ⟨"B", some (9999 / 200)⟩] := by
      intro p hp
      simp only [List.mem_cons, List.not_mem_nil, or_false] at hp
      rcases hp with rfl | rfl
      · exact ⟨10001 / 200, rfl, by norm_num⟩
      · exact ⟨9999 / 200, rfl, by norm_num⟩
    have h2 : |valuesSum
        [⟨"A", some (10001 / 200)⟩, ⟨"B", some (9999 / 200)⟩] - 100| ≤
          1 / 100 := by
      norm_num [valuesSum]
    rw [resolveExactSplit_ok_of _ _ h1 h2]
    simp only [Except.map, List.map_cons, List.map_nil]
    norm_num [sumShares, roundHalfUp2]
  · rw [resolveSplits_percentage _ _ _ (by simp)]
    have h1 : percentValuesOk
        [⟨"A", some (10001 / 200)⟩, ⟨"B", some (10001 / 200)⟩] := by
      intro p hp
      simp only [List.mem_cons, List.not_mem_nil, or_false] at hp
      rcases hp with rfl | rfl
      · exact ⟨10001 / 200, rfl, by norm_num, by norm_num⟩
      · exact ⟨10001 / 200, rfl, by norm_num, by norm_num⟩
    have hvs : valuesSum
        [⟨"A", some (10001 / 200)⟩, ⟨"B", some (10001 / 200)⟩] =
          10001 / 100 := by
      norm_num [valuesSum]
    have h2 : |valuesSum
        [⟨"A", some (10001 / 200)⟩, ⟨"B", some (10001 / 200)⟩] - 100| ≤
          1 / 100 := by
      rw [hvs, show (10001 : ℚ) / 100 - 100 = 1 / 100 by norm_num,
        abs_of_nonneg (by norm_num : (0 : ℚ) ≤ 1 / 100)]
    rw [resolvePercentageSplit_ok_of _ _ _ h1 h2]
    simp only [Except.map, List.map_cons, List.map_nil]
    norm_num [sumShares, truncShare, truncSum, roundDown2, ratTrunc]

/-- C1 amended: the Equal split always redistributes the total exactly;
the Percentage split redistributes `max(totalAmount, sum of truncated
shares)` (equal to `totalAmount` whenever the truncated shares do not
overshoot it, in particular whenever the percentages sum to at most 100);
the Exact split redistributes the sum of the individually rounded values,
which can differ from `totalAmount` by up to the accepted tolerance. -/
theorem C1_sum_invariant_amended :
    (∀ (totalAmount : ℚ) (p : SplitInput) (rest : List SplitInput),
      sumShares (resolveEqualSplit totalAmount (p :: rest)) = totalAmount) ∧
    (∀ (totalAmount : ℚ) (ps : List SplitInput) (shares : List ResolvedSplit),
      resolvePercentageSplit totalAmount ps = .ok shares →
      sumShares shares = max totalAmount (truncSum totalAmount ps)) ∧
    (∀ (totalAmount : ℚ) (ps : List SplitInput) (shares : List ResolvedSplit),
      resolveExactSplit totalAmount ps = .ok shares →
      sumShares shares =
        (ps.map (fun p => roundHalfUp2 (p.value.getD 0))).sum) := by
  refine ⟨fun t p rest => sumShares_resolveEqualSplit t p rest,
    fun t ps shares h => resolvePercentageSplit_sum t ps shares h,
    fun t ps shares h => ?_⟩
  rw [resolveExactSplit_ok_shape t ps shares h]
  exact sumShares_map ps _ _

/-- C1 amended witness: the Equal part at 100.00 over three participants,
and the Exact part at values 60 and 40. -/
theorem C1_sum_invariant_amended_witness :
    sumShares (resolveEqualSplit 100 [⟨"A", none⟩, ⟨"B", none⟩, ⟨"C", none⟩]) =
      (100 : ℚ) ∧
    sumShares [⟨"A", roundHalfUp2 60⟩, ⟨"B", roundHalfUp2 40⟩] =
      (([⟨"A", some 60⟩, ⟨"B", some 40⟩] : List SplitInput).map
        (fun p => roundHalfUp2 (p.value.getD 0))).sum :=
  ⟨C1_sum_invariant_amended.1 100 ⟨"A", none⟩ [⟨"B", none⟩, ⟨"C", none⟩],
   C1_sum_invariant_amended.2.2 100 [⟨"A", some 60⟩, ⟨"B", some 40⟩]
     [⟨"A", roundHalfUp2 60⟩, ⟨"B", roundHalfUp2 40⟩]
     (by
       have h1 : exactValuesOk ([⟨"A", some 60⟩, ⟨"B", some 40⟩] : List SplitInput) := by
         intro p hp
         simp only [List.mem_cons, List.not_mem_nil, or_false] at hp
         rcases hp with rfl | rfl
         · exact ⟨60, rfl, by norm_num⟩
         · exact ⟨40, rfl, by norm_num⟩
       have h2 : |valuesSum ([⟨"A", some 60⟩, ⟨"B", some 40⟩] : List SplitInput) - 100| ≤
           1 / 100 := by
         norm_num [valuesSum]
       rw [resolveExactSplit_ok_of _ _ h1 h2]
       simp)⟩
